import Mathlib

/-!
Verification of the sigil engine of `app.py` (Letter Atlas, Word Preprocessor,
Layout Table, Sigil Renderer).  The Python source is shallowly embedded:
the Atlas dictionary becomes a lookup function, the `skip_next` scanning loop
of `preprocess_word` becomes a fold over the index range carrying the flag,
and `draw_rose_sigil` becomes a fold that emits a trace of drawing commands.
Real-valued coordinates are modelled over `ℝ`.
-/

/-- Embedding of the `letter_mapping` dictionary of `app.py`.  Each Python
value is a singleton list `[(symbol, color)]` always accessed at index 0, so
it is flattened here to the pair itself.  `none` models absence of the key. -/
def letter_mapping (s : String) : Option (String × String) :=
  if s = "A" then some ("A", "#FFFF00")
  else if s = "E" then some ("A", "#FFFF00")
  else if s = "B" then some ("B", "#FFFF00")
  else if s = "C" then some ("G", "#0000FF")
  else if s = "CH" then some ("Ch", "#FFD700")
  else if s = "H" then some ("H", "#FF0000")
  else if s = "G" then some ("G", "#0000FF")
  else if s = "GH" then some ("GH", "#0000FF")
  else if s = "D" then some ("D", "#008000")
  else if s = "DH" then some ("DH", "#008000")
  else if s = "V" then some ("V", "#FF4500")
  else if s = "U" then some ("V", "#FF4500")
  else if s = "W" then some ("V", "#FF4500")
  else if s = "O" then some ("O", "#4B0082")
  else if s = "Z" then some ("Z", "#FFA500")
  else if s = "T" then some ("T", "#FFFF00")
  else if s = "TH" then some ("TH", "#4B0082")
  else if s = "I" then some ("I", "#9ACD32")
  else if s = "J" then some ("I", "#9ACD32")
  else if s = "Y" then some ("I", "#9ACD32")
  else if s = "K" then some ("K", "#800080")
  else if s = "KH" then some ("KH", "#9400D3")
  else if s = "L" then some ("L", "#008000")
  else if s = "M" then some ("M", "#0000FF")
  else if s = "N" then some ("N", "#20B2AA")
  else if s = "S" then some ("S", "#FF4500")
  else if s = "SH" then some ("Sh", "#FF0000")
  else if s = "P" then some ("P", "#FF0000")
  else if s = "PH" then some ("PH", "#FFA500")
  else if s = "F" then some ("F", "#FF0000")
  else if s = "X" then some ("X", "#800080")
  else if s = "TZ" then some ("X", "#800080")
  else if s = "Q" then some ("Q", "#9400D3")
  else if s = "R" then some ("R", "#FFA500")
  else if s = "RH" then some ("RH", "#FFD700")
  else none

/-- Embedding of Python's `word.upper()` restricted to the basic latin
letters, as `Char.toUpper` performs: every character is upper-cased. -/
def toUpperStr (w : String) : String :=
  String.mk (w.data.map Char.toUpper)

/-- One iteration of the `for i in range(len(word))` loop of
`preprocess_word`: the state is the pair `(skip_next, processed_word)`.
When the `skip_next` flag is set the iteration only clears it. -/
def pstep (word : List Char) : Bool × List String → ℕ → Bool × List String
  | (true, done), _ => (false, done)
  | (false, done), i =>
    if i < word.length - 1 then
      if (letter_mapping (String.mk [word.getD i ' ', word.getD (i + 1) ' '])).isSome then
        (true, done ++ [String.mk [word.getD i ' ', word.getD (i + 1) ' ']])
      else if (letter_mapping (String.mk [word.getD i ' '])).isSome then
        (false, done ++ [String.mk [word.getD i ' ']])
      else (false, done)
    else
      if (letter_mapping (String.mk [word.getD i ' '])).isSome then
        (false, done ++ [String.mk [word.getD i ' ']])
      else (false, done)

/-- Embedding of `preprocess_word` of `app.py`: upper-case the word, then scan
the index range carrying the `skip_next` flag, appending matched tokens. -/
def preprocess_word (w : String) : List String :=
  ((List.range (toUpperStr w).data.length).foldl
    (pstep (toUpperStr w).data) (false, [])).2

/-- Modelled from the spec (section 4.2): greedy longest-match-first
tokenizer with maximum token length 2, written with an explicit cursor that
advances by two on a digraph match and by one otherwise. -/
def greedyTokens : List Char → List String
  | [] => []
  | [c] =>
    if (letter_mapping (String.mk [c])).isSome then [String.mk [c]] else []
  | c :: c2 :: rest =>
    if (letter_mapping (String.mk [c, c2])).isSome then
      String.mk [c, c2] :: greedyTokens rest
    else if (letter_mapping (String.mk [c])).isSome then
      String.mk [c] :: greedyTokens (c2 :: rest)
    else greedyTokens (c2 :: rest)

/-- Modelled from the spec: `preprocess` as described in section 4.2. -/
def preprocess_spec (w : String) : List String :=
  greedyTokens (toUpperStr w).data

example : preprocess_word "CH" = ["CH"] := by decide
example : preprocess_word "JAMES" = ["J", "A", "M", "E", "S"] := by decide
example : preprocess_word "A1B" = ["A", "B"] := by decide
example : preprocess_word "C1H" = ["C", "H"] := by decide
example : preprocess_word "ch" = ["CH"] := by decide


/-- Invariant of the scanning loop: folding `pstep` over the index range
covering the rest of the word, starting with the flag down, appends exactly
the tokens of the greedy tokenizer on the suffix `drop k`. -/
lemma foldl_pstep_eq (word : List Char) :
    ∀ m, ∀ k, ∀ acc : List String, word.length - k = m →
      ((List.range' k m).foldl (pstep word) (false, acc)).2
        = acc ++ greedyTokens (word.drop k) := by
  intro m
  induction m using Nat.strong_induction_on with
  | _ m ih =>
    intro k acc hm
    match m, hm with
    | 0, hm =>
      have hk : word.length ≤ k := by omega
      simp [List.drop_eq_nil_of_le hk, greedyTokens]
    | m1 + 1, hm =>
      have hk : k < word.length := by omega
      have hg1 : word.getD k ' ' = word[k] := List.getD_eq_getElem word ' ' hk
      rw [List.range'_succ, List.foldl_cons]
      by_cases hk1 : k < word.length - 1
      · have hk2 : k + 1 < word.length := by omega
        have hg2 : word.getD (k + 1) ' ' = word[k + 1] :=
          List.getD_eq_getElem word ' ' hk2
        have hdrop : word.drop k = word[k] :: word[k + 1] :: word.drop (k + 2) := by
          rw [List.drop_eq_getElem_cons hk, List.drop_eq_getElem_cons hk2]
        by_cases h2 : (letter_mapping (String.mk [word[k], word[k + 1]])).isSome
        · have hstep : pstep word (false, acc) k
              = (true, acc ++ [String.mk [word[k], word[k + 1]]]) := by
            simp only [pstep]
            rw [if_pos hk1, hg1, hg2, if_pos h2]
          obtain ⟨m2, rfl⟩ : ∃ m2, m1 = m2 + 1 := ⟨m1 - 1, by omega⟩
          rw [hstep, List.range'_succ, List.foldl_cons]
          have hskip : pstep word (true, acc ++ [String.mk [word[k], word[k + 1]]]) (k + 1)
              = (false, acc ++ [String.mk [word[k], word[k + 1]]]) := rfl
          rw [hskip, ih m2 (by omega) (k + 2) _ (by omega), hdrop]
          simp only [greedyTokens]
          rw [if_pos h2, List.append_assoc]
          rfl
        · have hstep2 : pstep word (false, acc) k
              = (false, (pstep word (false, acc) k).2) := by
            simp only [pstep]
            rw [if_pos hk1, hg1, hg2, if_neg h2]
            by_cases h1 : (letter_mapping (String.mk [word[k]])).isSome
            · rw [if_pos h1]
            · rw [if_neg h1]
          rw [hstep2, ih m1 (by omega) (k + 1) _ (by omega), hdrop]
          simp only [greedyTokens]
          rw [if_neg h2]
          by_cases h1 : (letter_mapping (String.mk [word[k]])).isSome
          · have hv : (pstep word (false, acc) k).2 = acc ++ [String.mk [word[k]]] := by
              simp only [pstep]
              rw [if_pos hk1, hg1, hg2, if_neg h2, if_pos h1]
            rw [hv, if_pos h1, List.drop_eq_getElem_cons hk2, List.append_assoc]
            rfl
          · have hv : (pstep word (false, acc) k).2 = acc := by
              simp only [pstep]
              rw [if_pos hk1, hg1, hg2, if_neg h2, if_neg h1]
            rw [hv, if_neg h1, List.drop_eq_getElem_cons hk2]
      · obtain rfl : m1 = 0 := by omega
        have hlast : word.drop k = [word[k]] := by
          rw [List.drop_eq_getElem_cons hk, List.drop_eq_nil_of_le (by omega)]
        by_cases h1 : (letter_mapping (String.mk [word[k]])).isSome
        · have hstep : pstep word (false, acc) k
              = (false, acc ++ [String.mk [word[k]]]) := by
            simp only [pstep]
            rw [if_neg hk1, hg1, if_pos h1]
          rw [hstep, hlast]
          simp only [List.range', List.foldl_nil, greedyTokens]
          rw [if_pos h1]
        · have hstep : pstep word (false, acc) k = (false, acc) := by
            simp only [pstep]
            rw [if_neg hk1, hg1, if_neg h1]
          rw [hstep, hlast]
          simp only [List.range', List.foldl_nil, greedyTokens]
          rw [if_neg h1]
          simp

/-- Shared refinement lemma: the embedded `preprocess_word` agrees with the
greedy cursor tokenizer described in the spec. -/
lemma preprocess_eq_spec (w : String) : preprocess_word w = preprocess_spec w := by
  unfold preprocess_word preprocess_spec
  rw [List.range_eq_range',
    foldl_pstep_eq (toUpperStr w).data (toUpperStr w).data.length 0 [] (by omega)]
  simp

/-- Packing a valid codepoint into a character and reading it back is the
identity. -/
lemma char_toNat_ofNat_valid (n : ℕ) (h : n.isValidChar) :
    (Char.ofNat n).toNat = n := by
  rw [Char.ofNat, dif_pos h]
  rfl

/-- Characters outside the lower-case latin range are fixed by `toUpper`. -/
lemma toUpper_eq_self_of_not_lower (d : Char)
    (h : ¬(d.toNat ≥ 97 ∧ d.toNat ≤ 122)) : d.toUpper = d := by
  simp only [Char.toUpper]
  rw [if_neg h]

/-- Upper-casing never produces a lower-case latin character. -/
lemma toUpper_toNat_not_lower (c : Char) :
    ¬(c.toUpper.toNat ≥ 97 ∧ c.toUpper.toNat ≤ 122) := by
  simp only [Char.toUpper]
  by_cases h : c.toNat ≥ 97 ∧ c.toNat ≤ 122
  · rw [if_pos h, char_toNat_ofNat_valid _ (Or.inl (by omega))]
    omega
  · rw [if_neg h]
    exact h

/-- Upper-casing characters is idempotent. -/
lemma toUpper_idem (c : Char) : c.toUpper.toUpper = c.toUpper :=
  toUpper_eq_self_of_not_lower _ (toUpper_toNat_not_lower c)

/-- Upper-casing words is idempotent. -/
lemma toUpperStr_idem (w : String) : toUpperStr (toUpperStr w) = toUpperStr w := by
  show String.mk ((w.data.map Char.toUpper).map Char.toUpper)
      = String.mk (w.data.map Char.toUpper)
  rw [List.map_map]
  congr 1
  apply List.map_congr_left
  intro a _
  exact toUpper_idem a

/-- Shared lemma: preprocessing an upper-cased word gives the same tokens. -/
lemma preprocess_toUpper (w : String) :
    preprocess_word (toUpperStr w) = preprocess_word w := by
  unfold preprocess_word
  rw [toUpperStr_idem]

/-- Shared lemma: every token the greedy tokenizer emits is an Atlas key. -/
lemma greedyTokens_mapped :
    ∀ n, ∀ l : List Char, l.length ≤ n →
      ∀ t ∈ greedyTokens l, (letter_mapping t).isSome := by
  intro n
  induction n with
  | zero =>
    intro l hl t ht
    have : l = [] := List.length_eq_zero.mp (by omega)
    subst this
    simp [greedyTokens] at ht
  | succ n ihn =>
    intro l hl t ht
    match l with
    | [] => simp [greedyTokens] at ht
    | [c] =>
      simp only [greedyTokens] at ht
      by_cases h1 : (letter_mapping (String.mk [c])).isSome
      · rw [if_pos h1] at ht
        rcases List.mem_singleton.mp ht with rfl
        exact h1
      · rw [if_neg h1] at ht
        simp at ht
    | c :: c2 :: rest =>
      have hr : rest.length ≤ n := by simp at hl; omega
      have hr2 : (c2 :: rest).length ≤ n := by simp at hl ⊢; omega
      simp only [greedyTokens] at ht
      by_cases h2 : (letter_mapping (String.mk [c, c2])).isSome
      · rw [if_pos h2] at ht
        rcases List.mem_cons.mp ht with rfl | ht2
        · exact h2
        · exact ihn rest hr t ht2
      · rw [if_neg h2] at ht
        by_cases h1 : (letter_mapping (String.mk [c])).isSome
        · rw [if_pos h1] at ht
          rcases List.mem_cons.mp ht with rfl | ht2
          · exact h1
          · exact ihn (c2 :: rest) hr2 t ht2
        · rw [if_neg h1] at ht
          exact ihn (c2 :: rest) hr2 t ht

/-- Shared lemma: every token `preprocess_word` emits is an Atlas key. -/
lemma preprocess_tokens_mapped (w : String) :
    ∀ t ∈ preprocess_word w, (letter_mapping t).isSome := by
  rw [preprocess_eq_spec]
  exact greedyTokens_mapped (toUpperStr w).data.length (toUpperStr w).data le_rfl

/-- Ring coordinate formula of `draw_rose_sigil`: index `i` of `N` items on a
ring of radius `R` sits at `(-cos(i*(2*pi/N))*R, sin(i*(2*pi/N))*R)`. -/
noncomputable def ringPos (R : ℝ) (N i : ℕ) : ℝ × ℝ :=
  (-Real.cos (i * (2 * Real.pi / N)) * R, Real.sin (i * (2 * Real.pi / N)) * R)

/-- Outer-ring symbol order of `draw_rose_sigil`. -/
def ordered_outer_letters : List String :=
  ["H", "Z", "V", "E", "Q", "X", "O", "S", "N", "L", "I", "T", "Ch"]

/-- Middle-ring symbol order of `draw_rose_sigil`. -/
def ordered_middle_letters : List String :=
  ["R", "RH", "P", "PH", "F", "K", "KH", "TH", "G", "GH", "D", "DH", "B"]

/-- Center symbol list of `draw_rose_sigil`. -/
def ordered_mother_letters : List String := ["M", "A", "Sh"]

/-- Embedding of the `all_positions` dictionary of `draw_rose_sigil`: outer
ring entries at radius 2, middle ring entries at radius 1.2, and the three
fixed center points.  The Python dict is built by updating with the outer
comprehension, then the middle comprehension, then the three center
assignments; all key groups are disjoint, so lookup order is immaterial and
the later updates are checked first here. -/
noncomputable def all_positions (s : String) : Option (ℝ × ℝ) :=
  if s = "A" then some (0, 0.7)
  else if s = "M" then some (-0.7, 0)
  else if s = "Sh" then some (0.7, 0)
  else
    match ordered_middle_letters.findIdx? (· == s) with
    | some i => some (ringPos 1.2 ordered_middle_letters.length i)
    | none =>
      match ordered_outer_letters.findIdx? (· == s) with
      | some i => some (ringPos 2 ordered_outer_letters.length i)
      | none => none

example : all_positions "H" = some (ringPos 2 13 0) := rfl
example : all_positions "Ch" = some (ringPos 2 13 12) := rfl
example : all_positions "B" = some (ringPos 1.2 13 12) := rfl
example : all_positions "A" = some (0, 0.7) := rfl
example : all_positions "Q" = some (ringPos 2 13 4) := rfl
example : all_positions "CH" = none := rfl

/-- Squared distance from the origin of a planar point. -/
noncomputable def normSq2 (p : ℝ × ℝ) : ℝ := p.1 ^ 2 + p.2 ^ 2

/-- Ring points lie at squared distance `R ^ 2` from the origin. -/
lemma ringPos_normSq (R : ℝ) (N i : ℕ) : normSq2 (ringPos R N i) = R ^ 2 := by
  dsimp only [ringPos, normSq2]
  linear_combination (R ^ 2) * Real.sin_sq_add_cos_sq ((i : ℝ) * (2 * Real.pi / N))

/-- Points with different squared distances from the origin differ. -/
lemma ne_of_normSq2 {p q : ℝ × ℝ} (h : normSq2 p ≠ normSq2 q) : p ≠ q :=
  fun he => h (congrArg normSq2 he)

/-- Distinct indices below `N` give distinct points on a ring of positive
radius: the angles lie in `[0, 2*pi)` and `(cos, sin)` is injective there. -/
lemma ringPos_inj (R : ℝ) (hR : 0 < R) (N i j : ℕ)
    (hi : i < N) (hj : j < N) (hne : i ≠ j) : ringPos R N i ≠ ringPos R N j := by
  intro h
  have hN : (0 : ℝ) < N := by exact_mod_cast Nat.pos_of_ne_zero (by omega)
  have hpi : 0 < Real.pi := Real.pi_pos
  have hstep : (0 : ℝ) < 2 * Real.pi / N := by positivity
  set c := 2 * Real.pi / N with hc
  have hfst : -Real.cos ((i : ℝ) * c) * R = -Real.cos ((j : ℝ) * c) * R :=
    congrArg Prod.fst h
  have hsnd : Real.sin ((i : ℝ) * c) * R = Real.sin ((j : ℝ) * c) * R :=
    congrArg Prod.snd h
  have hcos : Real.cos ((i : ℝ) * c) = Real.cos ((j : ℝ) * c) := by
    have h2 := mul_right_cancel₀ (ne_of_gt hR) hfst
    linarith
  have hsin : Real.sin ((i : ℝ) * c) = Real.sin ((j : ℝ) * c) :=
    mul_right_cancel₀ (ne_of_gt hR) hsnd
  have hang : (((i : ℝ) * c : ℝ) : Real.Angle) = (((j : ℝ) * c : ℝ) : Real.Angle) :=
    Real.Angle.cos_sin_inj hcos hsin
  obtain ⟨k, hk⟩ := Real.Angle.angle_eq_iff_two_pi_dvd_sub.mp hang
  have hiN : (i : ℝ) < N := by exact_mod_cast hi
  have hjN : (j : ℝ) < N := by exact_mod_cast hj
  have hNc : (N : ℝ) * c = 2 * Real.pi := by
    rw [hc]
    field_simp
  have hbi : (i : ℝ) * c < 2 * Real.pi := by
    rw [← hNc]
    exact mul_lt_mul_of_pos_right hiN hstep
  have hbj : (j : ℝ) * c < 2 * Real.pi := by
    rw [← hNc]
    exact mul_lt_mul_of_pos_right hjN hstep
  have h0i : (0 : ℝ) ≤ (i : ℝ) * c := by positivity
  have h0j : (0 : ℝ) ≤ (j : ℝ) * c := by positivity
  have habs : |(i : ℝ) * c - (j : ℝ) * c| < 2 * Real.pi :=
    abs_lt.mpr ⟨by linarith, by linarith⟩
  rw [hk, abs_mul, abs_of_pos (by positivity : (0 : ℝ) < 2 * Real.pi)] at habs
  have h2pi : (0 : ℝ) < 2 * Real.pi := by positivity
  have hk1 : |(k : ℝ)| < 1 := (mul_lt_iff_lt_one_right h2pi).mp habs
  have hk0 : k = 0 := by
    rw [← Int.cast_abs] at hk1
    exact Int.abs_lt_one_iff.mp (by exact_mod_cast hk1)
  rw [hk0] at hk
  simp at hk
  have hij : (i : ℝ) * c = (j : ℝ) * c := by linarith
  have : (i : ℝ) = (j : ℝ) := mul_right_cancel₀ (ne_of_gt hstep) hij
  exact hne (by exact_mod_cast this)

/-- The 29 coordinates of the Layout Table in assignment order: the outer
ring comprehension, the middle ring comprehension, then the three center
points, as built in `draw_rose_sigil`. -/
noncomputable def layoutCoords : List (ℝ × ℝ) :=
  (List.range ordered_outer_letters.length).map
      (ringPos 2 ordered_outer_letters.length)
    ++ (List.range ordered_middle_letters.length).map
      (ringPos 1.2 ordered_middle_letters.length)
    ++ [(0, 0.7), (-0.7, 0), (0.7, 0)]

/-- Index view of the layout coordinates: outer ring for `k < 13`, middle
ring for `13 ≤ k < 26`, the three centers for `26 ≤ k < 29`. -/
noncomputable def layoutCoordAt (k : ℕ) : ℝ × ℝ :=
  if k < 13 then ringPos 2 13 k
  else if k < 26 then ringPos 1.2 13 (k - 13)
  else if k = 26 then (0, 0.7)
  else if k = 27 then (-0.7, 0)
  else (0.7, 0)

lemma layoutCoords_eq : layoutCoords = (List.range 29).map layoutCoordAt := rfl

lemma layoutCoordAt_outer {k : ℕ} (h : k < 13) :
    layoutCoordAt k = ringPos 2 13 k := by
  simp [layoutCoordAt, h]

lemma layoutCoordAt_middle {k : ℕ} (h1 : 13 ≤ k) (h2 : k < 26) :
    layoutCoordAt k = ringPos 1.2 13 (k - 13) := by
  simp [layoutCoordAt, Nat.not_lt.mpr h1, h2]

/-- Squared distances separate the three radius classes of the layout. -/
lemma layoutCoordAt_inj (i j : ℕ) (hi : i < 29) (hj : j < 29) (hne : i ≠ j) :
    layoutCoordAt i ≠ layoutCoordAt j := by
  have houter : ∀ k, k < 13 → normSq2 (layoutCoordAt k) = 4 := by
    intro k hk
    rw [layoutCoordAt_outer hk, ringPos_normSq]
    norm_num
  have hmiddle : ∀ k, 13 ≤ k → k < 26 → normSq2 (layoutCoordAt k) = 1.44 := by
    intro k hk1 hk2
    rw [layoutCoordAt_middle hk1 hk2, ringPos_normSq]
    norm_num
  have hcenter : ∀ k, 26 ≤ k → k < 29 → normSq2 (layoutCoordAt k) = 0.49 := by
    intro k hk1 hk2
    interval_cases k <;> simp [layoutCoordAt, normSq2] <;> norm_num
  rcases Nat.lt_or_ge i 13 with hi13 | hi13 <;> rcases Nat.lt_or_ge j 13 with hj13 | hj13
  · rw [layoutCoordAt_outer hi13, layoutCoordAt_outer hj13]
    exact ringPos_inj 2 (by norm_num) 13 i j hi13 hj13 hne
  · rcases Nat.lt_or_ge j 26 with hj26 | hj26
    · exact ne_of_normSq2 (by rw [houter i hi13, hmiddle j hj13 hj26]; norm_num)
    · exact ne_of_normSq2 (by rw [houter i hi13, hcenter j hj26 hj]; norm_num)
  · rcases Nat.lt_or_ge i 26 with hi26 | hi26
    · exact ne_of_normSq2 (by rw [hmiddle i hi13 hi26, houter j hj13]; norm_num)
    · exact ne_of_normSq2 (by rw [hcenter i hi26 hi, houter j hj13]; norm_num)
  · rcases Nat.lt_or_ge i 26 with hi26 | hi26 <;> rcases Nat.lt_or_ge j 26 with hj26 | hj26
    · rw [layoutCoordAt_middle hi13 hi26, layoutCoordAt_middle hj13 hj26]
      exact ringPos_inj 1.2 (by norm_num) 13 (i - 13) (j - 13)
        (by omega) (by omega) (by omega)
    · exact ne_of_normSq2 (by rw [hmiddle i hi13 hi26, hcenter j hj26 hj]; norm_num)
    · exact ne_of_normSq2 (by rw [hcenter i hi26 hi, hmiddle j hj13 hj26]; norm_num)
    · interval_cases i <;> interval_cases j <;>
        first
        | exact absurd rfl hne
        | · intro h
            rw [Prod.mk.injEq] at h
            simp only [layoutCoordAt] at h
            norm_num at h

/-- All 29 layout coordinates are pairwise distinct. -/
lemma layoutCoords_pairwise : layoutCoords.Pairwise (fun p q => p ≠ q) := by
  rw [layoutCoords_eq, List.pairwise_map, List.pairwise_iff_getElem]
  intro a b ha hb hab
  have hla : a < 29 := by simpa using ha
  have hlb : b < 29 := by simpa using hb
  rw [List.getElem_range, List.getElem_range]
  exact layoutCoordAt_inj a b hla hlb (by omega)

/-- Drawing commands emitted by `draw_rose_sigil`, in emission order: the
figure background, the bounding circle patch, the per-symbol text, line
segments and repeat-marker circles of the loop, the start-marker circle,
the end tick stroke, and the figure caption. -/
inductive DrawCmd : Type
  | background : DrawCmd
  | boundingCircle : ℝ × ℝ → ℝ → DrawCmd
  | text : ℝ × ℝ → String → String → DrawCmd
  | segment : ℝ × ℝ → ℝ × ℝ → String → DrawCmd
  | repeatMarker : ℝ × ℝ → ℝ → String → DrawCmd
  | startMarker : ℝ × ℝ → ℝ → DrawCmd
  | endTick : ℝ × ℝ → ℝ × ℝ → DrawCmd
  | title : String → DrawCmd

/-- Mutable state of the drawing loop of `draw_rose_sigil`: the commands
emitted so far, `prev_pos` paired with `prev_color`, `first_pos`,
`last_pos`, and the set (here: list) of seen positions. -/
structure RState where
  cmds : List DrawCmd
  prev : Option ((ℝ × ℝ) × String)
  first : Option (ℝ × ℝ)
  lastP : Option (ℝ × ℝ)
  seen : List (ℝ × ℝ)

/-- One iteration of the `for char in word` loop of `draw_rose_sigil`:
resolve the token through the Atlas, then through the layout (skipping on
either failure), draw the label, the segment from the previous position in
the previous color, and the repeat marker when the position was seen. -/
noncomputable def renderStep (st : RState) (ch : String) : RState :=
  match letter_mapping ch with
  | none => st
  | some (letter, color) =>
    match all_positions letter with
    | none => st
    | some p =>
      { cmds :=
          (st.cmds ++ [DrawCmd.text p letter color])
            ++ (match st.prev with
                | none => []
                | some (q, pcolor) => [DrawCmd.segment q p pcolor])
            ++ (if p ∈ st.seen then [DrawCmd.repeatMarker p 0.2 color] else [])
        prev := some (p, color)
        first := some (st.first.getD p)
        lastP := some p
        seen := st.seen ++ [p] }

/-- State at the start of the drawing loop: background and bounding circle
already emitted, no previous, first, or last position, nothing seen. -/
def initState : RState :=
  { cmds := [DrawCmd.background, DrawCmd.boundingCircle (0, 0) 2.5]
    prev := none
    first := none
    lastP := none
    seen := [] }

/-- Embedding of `draw_rose_sigil` of `app.py` as the list of drawing
commands it emits for the given word: preprocess, run the drawing loop,
then emit the start marker and the end tick when positions exist, and the
caption.  The PNG serialisation is outside the model. -/
noncomputable def renderCmds (w : String) : List DrawCmd :=
  let st := (preprocess_word w).foldl renderStep initState
  ((st.cmds
      ++ (match st.first with
          | some p => [DrawCmd.startMarker p 0.2]
          | none => []))
    ++ (match st.lastP with
        | some p => [DrawCmd.endTick p (p.1 + 0.2, p.2 - 0.2)]
        | none => []))
    ++ [DrawCmd.title "An Alchemelodic Sigil Generator"]

/-- Resolution of one token through the Atlas and the Layout Table, as the
loop body of `draw_rose_sigil` performs before drawing. -/
noncomputable def resolveTok (ch : String) : Option (String × String × (ℝ × ℝ)) :=
  match letter_mapping ch with
  | none => none
  | some (letter, color) =>
    match all_positions letter with
    | none => none
    | some p => some (letter, color, p)

/-- The resolved sequence of (symbol, color, coordinate) triples the
renderer draws for a word. -/
noncomputable def resolvedSeq (w : String) : List (String × String × (ℝ × ℝ)) :=
  (preprocess_word w).filterMap resolveTok

/-- Coordinate of a resolved triple. -/
def posOf (e : String × String × (ℝ × ℝ)) : ℝ × ℝ := e.2.2

/-- Color of a resolved triple. -/
def colorOf (e : String × String × (ℝ × ℝ)) : String := e.2.1

@[simp] lemma posOf_mk (l c : String) (p : ℝ × ℝ) : posOf (l, c, p) = p := rfl

@[simp] lemma colorOf_mk (l c : String) (p : ℝ × ℝ) : colorOf (l, c, p) = c := rfl

example : renderCmds "" =
    [DrawCmd.background, DrawCmd.boundingCircle (0, 0) 2.5,
      DrawCmd.title "An Alchemelodic Sigil Generator"] := rfl
example : resolvedSeq "AA" =
    [("A", "#FFFF00", ((0 : ℝ), (0.7 : ℝ))), ("A", "#FFFF00", ((0 : ℝ), (0.7 : ℝ)))] := rfl
example : (resolvedSeq "JAMES").map posOf =
    [ringPos 2 13 10, (0, 0.7), (-0.7, 0), (0, 0.7), ringPos 2 13 7] := rfl

/-- Trace of loop emissions described in spec section 4.4 step 3, as a
function of the incoming previous point and seen positions: label text,
segment from the previous coordinate in the previous color, and a repeat
ring marker when the coordinate was already visited. -/
noncomputable def traceOf :
    Option ((ℝ × ℝ) × String) → List (ℝ × ℝ) →
      List (String × String × (ℝ × ℝ)) → List DrawCmd
  | _, _, [] => []
  | prev, seen, (letter, color, p) :: rest =>
    ([DrawCmd.text p letter color]
        ++ (match prev with
            | none => []
            | some (q, pcolor) => [DrawCmd.segment q p pcolor])
        ++ (if p ∈ seen then [DrawCmd.repeatMarker p 0.2 color] else []))
      ++ traceOf (some (p, color)) (seen ++ [p]) rest

/-- Final value of `first_pos` given its incoming value and the resolved
triples still to process. -/
def updFirst (f0 : Option (ℝ × ℝ))
    (r : List (String × String × (ℝ × ℝ))) : Option (ℝ × ℝ) :=
  match r with
  | [] => f0
  | e :: _ => some (f0.getD (posOf e))

/-- Final value of `last_pos` given its incoming value and the resolved
triples still to process. -/
def updLast (l0 : Option (ℝ × ℝ))
    (r : List (String × String × (ℝ × ℝ))) : Option (ℝ × ℝ) :=
  match r.getLast? with
  | none => l0
  | some e => some (posOf e)

/-- Final value of `prev_pos` and `prev_color` given their incoming value
and the resolved triples still to process. -/
def updPrev (p0 : Option ((ℝ × ℝ) × String))
    (r : List (String × String × (ℝ × ℝ))) : Option ((ℝ × ℝ) × String) :=
  match r.getLast? with
  | none => p0
  | some e => some (posOf e, colorOf e)

lemma updFirst_cons (f0 : Option (ℝ × ℝ)) (e : String × String × (ℝ × ℝ))
    (r : List (String × String × (ℝ × ℝ))) :
    updFirst (some (f0.getD (posOf e))) r = updFirst f0 (e :: r) := by
  cases r <;> simp [updFirst]

lemma updLast_cons (l0 : Option (ℝ × ℝ)) (e : String × String × (ℝ × ℝ))
    (r : List (String × String × (ℝ × ℝ))) :
    updLast (some (posOf e)) r = updLast l0 (e :: r) := by
  cases r with
  | nil => simp [updLast]
  | cons f rest =>
    unfold updLast
    rw [List.getLast?_cons_cons]
    cases hr : (f :: rest).getLast? with
    | none => simp at hr
    | some x => simp

lemma updPrev_cons (p0 : Option ((ℝ × ℝ) × String))
    (e : String × String × (ℝ × ℝ)) (r : List (String × String × (ℝ × ℝ))) :
    updPrev (some (posOf e, colorOf e)) r = updPrev p0 (e :: r) := by
  cases r with
  | nil => simp [updPrev]
  | cons f rest =>
    unfold updPrev
    rw [List.getLast?_cons_cons]
    cases hr : (f :: rest).getLast? with
    | none => simp at hr
    | some x => simp

lemma traceOf_cons (prev : Option ((ℝ × ℝ) × String)) (seen : List (ℝ × ℝ))
    (letter color : String) (p : ℝ × ℝ) (rest : List (String × String × (ℝ × ℝ))) :
    traceOf prev seen ((letter, color, p) :: rest) =
      ([DrawCmd.text p letter color]
          ++ (match prev with
              | none => []
              | some (q, pcolor) => [DrawCmd.segment q p pcolor])
          ++ (if p ∈ seen then [DrawCmd.repeatMarker p 0.2 color] else []))
        ++ traceOf (some (p, color)) (seen ++ [p]) rest := rfl

/-- Invariant of the drawing loop: folding `renderStep` over the tokens
appends the spec trace of the resolved triples and updates the four state
registers as the corresponding suffix functions describe. -/
lemma foldl_renderStep_eq :
    ∀ (tokens : List String) (st : RState),
      tokens.foldl renderStep st =
        { cmds := st.cmds ++ traceOf st.prev st.seen (tokens.filterMap resolveTok)
          prev := updPrev st.prev (tokens.filterMap resolveTok)
          first := updFirst st.first (tokens.filterMap resolveTok)
          lastP := updLast st.lastP (tokens.filterMap resolveTok)
          seen := st.seen ++ (tokens.filterMap resolveTok).map posOf } := by
  intro tokens
  induction tokens with
  | nil =>
    intro st
    obtain ⟨c0, p0, f0, l0, s0⟩ := st
    simp [traceOf, updPrev, updFirst, updLast]
  | cons t ts ih =>
    intro st
    rw [List.foldl_cons]
    rcases h1 : letter_mapping t with _ | lc
    · have hstep : renderStep st t = st := by simp [renderStep, h1]
      have hres : resolveTok t = none := by simp [resolveTok, h1]
      rw [hstep, ih st, List.filterMap_cons, hres]
    · obtain ⟨letter, color⟩ := lc
      rcases h2 : all_positions letter with _ | p
      · have hstep : renderStep st t = st := by simp [renderStep, h1, h2]
        have hres : resolveTok t = none := by simp [resolveTok, h1, h2]
        rw [hstep, ih st, List.filterMap_cons, hres]
      · have hres : resolveTok t = some (letter, color, p) := by
          simp [resolveTok, h1, h2]
        have hstep : renderStep st t =
            { cmds :=
                (st.cmds ++ [DrawCmd.text p letter color])
                  ++ (match st.prev with
                      | none => []
                      | some (q, pcolor) => [DrawCmd.segment q p pcolor])
                  ++ (if p ∈ st.seen then [DrawCmd.repeatMarker p 0.2 color] else [])
              prev := some (p, color)
              first := some (st.first.getD p)
              lastP := some p
              seen := st.seen ++ [p] } := by
          simp [renderStep, h1, h2]
        rw [List.filterMap_cons, hres, hstep, ih]
        simp only [RState.mk.injEq]
        refine ⟨?_, ?_, ?_, ?_, ?_⟩
        · rw [traceOf_cons]
          simp [List.append_assoc]
        · exact updPrev_cons st.prev (letter, color, p) (ts.filterMap resolveTok)
        · exact updFirst_cons st.first (letter, color, p) (ts.filterMap resolveTok)
        · exact updLast_cons st.lastP (letter, color, p) (ts.filterMap resolveTok)
        · simp

/-- Start-marker emission as a function of the resolved sequence. -/
noncomputable def startCmds (r : List (String × String × (ℝ × ℝ))) : List DrawCmd :=
  match r.head? with
  | some e => [DrawCmd.startMarker (posOf e) 0.2]
  | none => []

/-- End-tick emission as a function of the resolved sequence. -/
noncomputable def endCmds (r : List (String × String × (ℝ × ℝ))) : List DrawCmd :=
  match r.getLast? with
  | some e => [DrawCmd.endTick (posOf e) ((posOf e).1 + 0.2, (posOf e).2 - 0.2)]
  | none => []

/-- Shared decomposition of the renderer output: setup, loop trace, start
marker, end tick, caption. -/
lemma renderCmds_eq (w : String) :
    renderCmds w =
      ((([DrawCmd.background, DrawCmd.boundingCircle (0, 0) 2.5]
            ++ traceOf none [] (resolvedSeq w))
          ++ startCmds (resolvedSeq w))
        ++ endCmds (resolvedSeq w))
      ++ [DrawCmd.title "An Alchemelodic Sigil Generator"] := by
  unfold renderCmds
  rw [foldl_renderStep_eq]
  have hfirst : ∀ r : List (String × String × (ℝ × ℝ)),
      (match updFirst none r with
        | some p => [DrawCmd.startMarker p 0.2]
        | none => ([] : List DrawCmd)) = startCmds r := by
    intro r
    cases r <;> simp [updFirst, startCmds]
  have hlast : ∀ r : List (String × String × (ℝ × ℝ)),
      (match updLast none r with
        | some p => [DrawCmd.endTick p (p.1 + 0.2, p.2 - 0.2)]
        | none => ([] : List DrawCmd)) = endCmds r := by
    intro r
    unfold updLast endCmds
    cases hr : r.getLast? <;> simp
  show _ = _
  rw [← hfirst (resolvedSeq w), ← hlast (resolvedSeq w)]
  rfl

/-- Repeat markers in the loop trace: one is present for coordinate `p` in
color `c` exactly when some resolved triple has coordinate `p` and color `c`
and `p` occurs among the seen positions extended by the earlier triples. -/
lemma repeatMarker_mem_traceOf :
    ∀ (r : List (String × String × (ℝ × ℝ))) (prev : Option ((ℝ × ℝ) × String))
      (seen : List (ℝ × ℝ)) (p : ℝ × ℝ) (rad : ℝ) (c : String),
      DrawCmd.repeatMarker p rad c ∈ traceOf prev seen r
        ↔ rad = 0.2 ∧ ∃ i e2, r[i]? = some e2 ∧ posOf e2 = p ∧ colorOf e2 = c
            ∧ p ∈ seen ++ (r.take i).map posOf := by
  intro r
  induction r with
  | nil =>
    intro prev seen p rad c
    simp [traceOf]
  | cons e rest ih =>
    intro prev seen p rad c
    obtain ⟨l, c0, q⟩ := e
    rw [traceOf_cons]
    constructor
    · intro h
      rcases List.mem_append.mp h with hb | ht
      · rcases List.mem_append.mp hb with hb2 | hmark
        · rcases List.mem_append.mp hb2 with htext | hseg
          · simp at htext
          · exfalso
            rcases prev with _ | ⟨q2, pc⟩ <;> simp at hseg
        · by_cases hq : q ∈ seen
          · rw [if_pos hq] at hmark
            simp only [List.mem_singleton, DrawCmd.repeatMarker.injEq] at hmark
            obtain ⟨hpq, hrad2, hcc⟩ := hmark
            refine ⟨hrad2, 0, (l, c0, q), by simp, ?_, ?_, ?_⟩
            · simp [hpq]
            · simp [hcc]
            · simp only [List.take_zero, List.map_nil, List.append_nil]
              rw [hpq]
              exact hq
          · rw [if_neg hq] at hmark
            simp at hmark
      · obtain ⟨hrad, i, e2, hget, hpos, hcol, hmem⟩ := (ih _ _ _ _ _).mp ht
        refine ⟨hrad, i + 1, e2, by simpa using hget, hpos, hcol, ?_⟩
        simp only [List.take_succ_cons, List.map_cons, posOf_mk]
        rw [← List.singleton_append, ← List.append_assoc]
        exact hmem
    · rintro ⟨rfl, i, e2, hget, hpos, hcol, hmem⟩
      cases i with
      | zero =>
        simp only [List.getElem?_cons_zero, Option.some.injEq] at hget
        subst hget
        simp only [posOf_mk] at hpos
        simp only [colorOf_mk] at hcol
        subst hpos
        subst hcol
        have hq : q ∈ seen := by simpa using hmem
        apply List.mem_append.mpr
        left
        apply List.mem_append.mpr
        right
        rw [if_pos hq]
        simp
      | succ i =>
        apply List.mem_append.mpr
        right
        apply (ih _ _ _ _ _).mpr
        refine ⟨rfl, i, e2, by simpa using hget, hpos, hcol, ?_⟩
        simp only [List.take_succ_cons, List.map_cons, posOf_mk] at hmem
        rw [← List.singleton_append, ← List.append_assoc] at hmem
        exact hmem

/-- Adjacent resolved triples yield a segment from the first coordinate to
the second, in the first triple's color, somewhere in the loop trace. -/
lemma segment_mem_traceOf :
    ∀ (r : List (String × String × (ℝ × ℝ))) (prev : Option ((ℝ × ℝ) × String))
      (seen : List (ℝ × ℝ)) (i : ℕ) (e1 e2 : String × String × (ℝ × ℝ)),
      r[i]? = some e1 → r[i + 1]? = some e2 →
      DrawCmd.segment (posOf e1) (posOf e2) (colorOf e1) ∈ traceOf prev seen r := by
  intro r
  induction r with
  | nil =>
    intro prev seen i e1 e2 h1 h2
    simp at h1
  | cons e rest ih =>
    intro prev seen i e1 e2 h1 h2
    obtain ⟨l, c0, q⟩ := e
    rw [traceOf_cons]
    cases i with
    | zero =>
      simp only [List.getElem?_cons_zero, Option.some.injEq] at h1
      subst h1
      have h2b : rest[0]? = some e2 := by simpa using h2
      cases rest with
      | nil => simp at h2b
      | cons f rest2 =>
        simp only [List.getElem?_cons_zero, Option.some.injEq] at h2b
        subst h2b
        apply List.mem_append.mpr
        right
        obtain ⟨l2, c2, q2⟩ := f
        rw [traceOf_cons]
        apply List.mem_append.mpr
        left
        apply List.mem_append.mpr
        left
        apply List.mem_append.mpr
        right
        simp
    | succ i =>
      apply List.mem_append.mpr
      right
      exact ih _ _ i e1 e2 (by simpa using h1) (by simpa using h2)

/-- Repeat markers in the rendered output are exactly revisits of an
earlier coordinate of the resolved sequence, in the revisiting symbol's
color and with radius 0.2. -/
lemma repeatMarker_mem_renderCmds (w : String) (p : ℝ × ℝ) (rad : ℝ) (c : String) :
    DrawCmd.repeatMarker p rad c ∈ renderCmds w
      ↔ rad = 0.2 ∧ ∃ i e, (resolvedSeq w)[i]? = some e ∧ posOf e = p ∧ colorOf e = c
          ∧ p ∈ ((resolvedSeq w).take i).map posOf := by
  have hstart : DrawCmd.repeatMarker p rad c ∉ startCmds (resolvedSeq w) := by
    unfold startCmds
    cases (resolvedSeq w).head? <;> simp
  have hend : DrawCmd.repeatMarker p rad c ∉ endCmds (resolvedSeq w) := by
    unfold endCmds
    cases (resolvedSeq w).getLast? <;> simp
  rw [renderCmds_eq]
  simp only [List.mem_append]
  rw [repeatMarker_mem_traceOf]
  constructor
  · rintro ((((h | h) | h) | h) | h)
    · simp at h
    · obtain ⟨hrad, i, e, h1, h2, h3, h4⟩ := h
      exact ⟨hrad, i, e, h1, h2, h3, by simpa using h4⟩
    · exact absurd h hstart
    · exact absurd h hend
    · simp at h
  · rintro ⟨hrad, i, e, h1, h2, h3, h4⟩
    exact Or.inl (Or.inl (Or.inl (Or.inr ⟨hrad, i, e, h1, h2, h3, by simpa using h4⟩)))

/-- Adjacent resolved triples always produce their connecting segment in
the rendered output, colored by the source triple. -/
lemma segment_mem_renderCmds (w : String) (i : ℕ)
    (e1 e2 : String × String × (ℝ × ℝ))
    (h1 : (resolvedSeq w)[i]? = some e1) (h2 : (resolvedSeq w)[i + 1]? = some e2) :
    DrawCmd.segment (posOf e1) (posOf e2) (colorOf e1) ∈ renderCmds w := by
  rw [renderCmds_eq]
  refine List.mem_append.mpr (Or.inl (List.mem_append.mpr (Or.inl
    (List.mem_append.mpr (Or.inl (List.mem_append.mpr (Or.inr ?_)))))))
  exact segment_mem_traceOf _ none [] i e1 e2 h1 h2

/-- The word "AB" visits two distinct coordinates, so it draws no repeat
marker at all. -/
lemma no_marker_AB : ∀ (p : ℝ × ℝ) (rad : ℝ) (c : String),
    DrawCmd.repeatMarker p rad c ∉ renderCmds "AB" := by
  intro p rad c h
  obtain ⟨hrad, i, e, hget, hpos, hcol, hmem⟩ :=
    (repeatMarker_mem_renderCmds _ _ _ _).mp h
  have hres : resolvedSeq "AB" =
      [("A", "#FFFF00", ((0 : ℝ), (0.7 : ℝ))), ("B", "#FFFF00", ringPos 1.2 13 12)] := rfl
  rw [hres] at hget hmem
  match i, hget, hmem with
  | 0, hget, hmem => simp at hmem
  | 1, hget, hmem =>
    simp only [List.getElem?_cons_succ, List.getElem?_cons_zero, Option.some.injEq] at hget
    subst hget
    simp only [posOf_mk] at hpos
    subst hpos
    simp only [List.take_succ_cons, List.take_zero, List.map_cons, List.map_nil,
      posOf_mk, List.mem_singleton] at hmem
    have hns := congrArg normSq2 hmem
    rw [ringPos_normSq] at hns
    norm_num [normSq2] at hns
  | n + 2, hget, hmem => simp at hget

/-- The rendered command list for the word "HA", fully evaluated. -/
lemma renderCmds_HA : renderCmds "HA" =
    [DrawCmd.background, DrawCmd.boundingCircle (0, 0) 2.5,
      DrawCmd.text (ringPos 2 13 0) "H" "#FF0000",
      DrawCmd.text (0, 0.7) "A" "#FFFF00",
      DrawCmd.segment (ringPos 2 13 0) (0, 0.7) "#FF0000",
      DrawCmd.startMarker (ringPos 2 13 0) 0.2,
      DrawCmd.endTick (0, 0.7) ((0 : ℝ) + 0.2, (0.7 : ℝ) - 0.2),
      DrawCmd.title "An Alchemelodic Sigil Generator"] := by
  have hres : resolvedSeq "HA" =
      [("H", "#FF0000", ringPos 2 13 0), ("A", "#FFFF00", ((0 : ℝ), (0.7 : ℝ)))] := rfl
  have hne : ((0 : ℝ), (0.7 : ℝ)) ≠ ringPos 2 13 0 :=
    ne_of_normSq2 (by rw [ringPos_normSq]; norm_num [normSq2])
  rw [renderCmds_eq, hres, traceOf_cons, traceOf_cons]
  rw [if_neg (by simp), if_neg (by simpa using hne)]
  simp [traceOf, startCmds, endCmds]

set_option maxHeartbeats 2000000 in
/-- Shared lemma: the canonical symbol of every Atlas entry has a layout
entry. -/
lemma atlas_symbol_has_position (k : String) (v : String × String)
    (h : letter_mapping k = some v) : (all_positions v.1).isSome := by
  unfold letter_mapping at h
  by_cases h1 : k = "A"
  case pos => rw [if_pos h1] at h; injection h with hv; subst hv; rfl
  rw [if_neg h1] at h
  by_cases h2 : k = "E"
  case pos => rw [if_pos h2] at h; injection h with hv; subst hv; rfl
  rw [if_neg h2] at h
  by_cases h3 : k = "B"
  case pos => rw [if_pos h3] at h; injection h with hv; subst hv; rfl
  rw [if_neg h3] at h
  by_cases h4 : k = "C"
  case pos => rw [if_pos h4] at h; injection h with hv; subst hv; rfl
  rw [if_neg h4] at h
  by_cases h5 : k = "CH"
  case pos => rw [if_pos h5] at h; injection h with hv; subst hv; rfl
  rw [if_neg h5] at h
  by_cases h6 : k = "H"
  case pos => rw [if_pos h6] at h; injection h with hv; subst hv; rfl
  rw [if_neg h6] at h
  by_cases h7 : k = "G"
  case pos => rw [if_pos h7] at h; injection h with hv; subst hv; rfl
  rw [if_neg h7] at h
  by_cases h8 : k = "GH"
  case pos => rw [if_pos h8] at h; injection h with hv; subst hv; rfl
  rw [if_neg h8] at h
  by_cases h9 : k = "D"
  case pos => rw [if_pos h9] at h; injection h with hv; subst hv; rfl
  rw [if_neg h9] at h
  by_cases h10 : k = "DH"
  case pos => rw [if_pos h10] at h; injection h with hv; subst hv; rfl
  rw [if_neg h10] at h
  by_cases h11 : k = "V"
  case pos => rw [if_pos h11] at h; injection h with hv; subst hv; rfl
  rw [if_neg h11] at h
  by_cases h12 : k = "U"
  case pos => rw [if_pos h12] at h; injection h with hv; subst hv; rfl
  rw [if_neg h12] at h
  by_cases h13 : k = "W"
  case pos => rw [if_pos h13] at h; injection h with hv; subst hv; rfl
  rw [if_neg h13] at h
  by_cases h14 : k = "O"
  case pos => rw [if_pos h14] at h; injection h with hv; subst hv; rfl
  rw [if_neg h14] at h
  by_cases h15 : k = "Z"
  case pos => rw [if_pos h15] at h; injection h with hv; subst hv; rfl
  rw [if_neg h15] at h
  by_cases h16 : k = "T"
  case pos => rw [if_pos h16] at h; injection h with hv; subst hv; rfl
  rw [if_neg h16] at h
  by_cases h17 : k = "TH"
  case pos => rw [if_pos h17] at h; injection h with hv; subst hv; rfl
  rw [if_neg h17] at h
  by_cases h18 : k = "I"
  case pos => rw [if_pos h18] at h; injection h with hv; subst hv; rfl
  rw [if_neg h18] at h
  by_cases h19 : k = "J"
  case pos => rw [if_pos h19] at h; injection h with hv; subst hv; rfl
  rw [if_neg h19] at h
  by_cases h20 : k = "Y"
  case pos => rw [if_pos h20] at h; injection h with hv; subst hv; rfl
  rw [if_neg h20] at h
  by_cases h21 : k = "K"
  case pos => rw [if_pos h21] at h; injection h with hv; subst hv; rfl
  rw [if_neg h21] at h
  by_cases h22 : k = "KH"
  case pos => rw [if_pos h22] at h; injection h with hv; subst hv; rfl
  rw [if_neg h22] at h
  by_cases h23 : k = "L"
  case pos => rw [if_pos h23] at h; injection h with hv; subst hv; rfl
  rw [if_neg h23] at h
  by_cases h24 : k = "M"
  case pos => rw [if_pos h24] at h; injection h with hv; subst hv; rfl
  rw [if_neg h24] at h
  by_cases h25 : k = "N"
  case pos => rw [if_pos h25] at h; injection h with hv; subst hv; rfl
  rw [if_neg h25] at h
  by_cases h26 : k = "S"
  case pos => rw [if_pos h26] at h; injection h with hv; subst hv; rfl
  rw [if_neg h26] at h
  by_cases h27 : k = "SH"
  case pos => rw [if_pos h27] at h; injection h with hv; subst hv; rfl
  rw [if_neg h27] at h
  by_cases h28 : k = "P"
  case pos => rw [if_pos h28] at h; injection h with hv; subst hv; rfl
  rw [if_neg h28] at h
  by_cases h29 : k = "PH"
  case pos => rw [if_pos h29] at h; injection h with hv; subst hv; rfl
  rw [if_neg h29] at h
  by_cases h30 : k = "F"
  case pos => rw [if_pos h30] at h; injection h with hv; subst hv; rfl
  rw [if_neg h30] at h
  by_cases h31 : k = "X"
  case pos => rw [if_pos h31] at h; injection h with hv; subst hv; rfl
  rw [if_neg h31] at h
  by_cases h32 : k = "TZ"
  case pos => rw [if_pos h32] at h; injection h with hv; subst hv; rfl
  rw [if_neg h32] at h
  by_cases h33 : k = "Q"
  case pos => rw [if_pos h33] at h; injection h with hv; subst hv; rfl
  rw [if_neg h33] at h
  by_cases h34 : k = "R"
  case pos => rw [if_pos h34] at h; injection h with hv; subst hv; rfl
  rw [if_neg h34] at h
  by_cases h35 : k = "RH"
  case pos => rw [if_pos h35] at h; injection h with hv; subst hv; rfl
  rw [if_neg h35] at h
  exact Option.noConfusion h

/-- Shared lemma: every Atlas key resolves fully through the layout. -/
lemma resolveTok_isSome_of_key (t : String) (h : (letter_mapping t).isSome) :
    (resolveTok t).isSome := by
  rcases ho : letter_mapping t with _ | v
  · rw [ho] at h
    simp at h
  · obtain ⟨l, c⟩ := v
    have hp := atlas_symbol_has_position t (l, c) ho
    rcases hq : all_positions l with _ | p
    · rw [hq] at hp
      simp at hp
    · simp [resolveTok, ho, hq]

/-- Filtering by a map that succeeds everywhere preserves the length. -/
lemma length_filterMap_resolveTok : ∀ ts : List String,
    (∀ t ∈ ts, (resolveTok t).isSome) →
      (ts.filterMap resolveTok).length = ts.length := by
  intro ts
  induction ts with
  | nil => intro _; simp
  | cons t ts ih =>
    intro h
    have h1 : (resolveTok t).isSome := h t (List.mem_cons_self t ts)
    rcases hr : resolveTok t with _ | e
    · rw [hr] at h1
      simp at h1
    · rw [List.filterMap_cons, hr]
      simp only [List.length_cons]
      rw [ih (fun x hx => h x (List.mem_cons_of_mem t hx))]

/-- Recogniser for repeat-marker commands. -/
def isRepeatMarker : DrawCmd → Bool
  | DrawCmd.repeatMarker _ _ _ => true
  | _ => false

/-- Recogniser for segment commands. -/
def isSegment : DrawCmd → Bool
  | DrawCmd.segment _ _ _ => true
  | _ => false

/-- Segments in the loop trace: one runs from `q` to `p` in color `col`
exactly when either the incoming previous point is `(q, col)` and the first
triple sits at `p`, or two adjacent triples have coordinates `q`, `p` and
the first of them has color `col`. -/
lemma segment_mem_traceOf_iff :
    ∀ (r : List (String × String × (ℝ × ℝ))) (prev : Option ((ℝ × ℝ) × String))
      (seen : List (ℝ × ℝ)) (q p : ℝ × ℝ) (col : String),
      DrawCmd.segment q p col ∈ traceOf prev seen r
        ↔ (∃ e2, r[0]? = some e2 ∧ prev = some (q, col) ∧ posOf e2 = p)
          ∨ ∃ i e1 e2, r[i]? = some e1 ∧ r[i + 1]? = some e2
              ∧ posOf e1 = q ∧ colorOf e1 = col ∧ posOf e2 = p := by
  intro r
  induction r with
  | nil =>
    intro prev seen q p col
    simp [traceOf]
  | cons e rest ih =>
    intro prev seen q p col
    obtain ⟨l, c0, pe⟩ := e
    rw [traceOf_cons]
    constructor
    · intro h
      rcases List.mem_append.mp h with hb | ht
      · rcases List.mem_append.mp hb with hb2 | hmark
        · rcases List.mem_append.mp hb2 with htext | hseg
          · simp at htext
          · rcases hp : prev with _ | ⟨q2, pc⟩
            · rw [hp] at hseg
              simp at hseg
            · rw [hp] at hseg
              simp only [List.mem_singleton, DrawCmd.segment.injEq] at hseg
              obtain ⟨h1, h2, h3⟩ := hseg
              exact Or.inl ⟨(l, c0, pe), by simp, by rw [h1, h3], by simp [h2]⟩
        · by_cases hq2 : pe ∈ seen
          · rw [if_pos hq2] at hmark
            simp at hmark
          · rw [if_neg hq2] at hmark
            simp at hmark
      · rcases (ih _ _ _ _ _).mp ht with ⟨e2, hget, hprev, hpos⟩ | ⟨i, e1, e2, hg1, hg2, hp1, hc1, hp2⟩
        · simp only [Option.some.injEq] at hprev
          injection hprev with hq1 hc1
          exact Or.inr ⟨0, (l, c0, pe), e2, by simp, by simpa using hget,
            by simp [hq1], by simp [hc1], hpos⟩
        · exact Or.inr ⟨i + 1, e1, e2, by simpa using hg1, by simpa using hg2, hp1, hc1, hp2⟩
    · intro h
      rcases h with ⟨e2, hget, hprev, hpos⟩ | ⟨i, e1, e2, hg1, hg2, hp1, hc1, hp2⟩
      · subst hprev
        simp only [List.getElem?_cons_zero, Option.some.injEq] at hget
        subst hget
        simp only [posOf_mk] at hpos
        subst hpos
        apply List.mem_append.mpr
        left
        apply List.mem_append.mpr
        left
        apply List.mem_append.mpr
        right
        simp
      · cases i with
        | zero =>
          simp only [List.getElem?_cons_zero, Option.some.injEq] at hg1
          subst hg1
          simp only [posOf_mk] at hp1
          simp only [colorOf_mk] at hc1
          apply List.mem_append.mpr
          right
          apply (ih _ _ _ _ _).mpr
          left
          exact ⟨e2, by simpa using hg2, by rw [hp1, hc1], hp2⟩
        | succ i =>
          apply List.mem_append.mpr
          right
          apply (ih _ _ _ _ _).mpr
          right
          exact ⟨i, e1, e2, by simpa using hg1, by simpa using hg2, hp1, hc1, hp2⟩

/-- Segments in the rendered output are exactly the connections of adjacent
resolved triples, colored by the source triple. -/
lemma segment_mem_renderCmds_iff (w : String) (q p : ℝ × ℝ) (col : String) :
    DrawCmd.segment q p col ∈ renderCmds w
      ↔ ∃ i e1 e2, (resolvedSeq w)[i]? = some e1 ∧ (resolvedSeq w)[i + 1]? = some e2
          ∧ posOf e1 = q ∧ colorOf e1 = col ∧ posOf e2 = p := by
  have hstart : DrawCmd.segment q p col ∉ startCmds (resolvedSeq w) := by
    unfold startCmds
    cases (resolvedSeq w).head? <;> simp
  have hend : DrawCmd.segment q p col ∉ endCmds (resolvedSeq w) := by
    unfold endCmds
    cases (resolvedSeq w).getLast? <;> simp
  rw [renderCmds_eq]
  simp only [List.mem_append]
  rw [segment_mem_traceOf_iff]
  constructor
  · rintro ((((h | h) | h) | h) | h)
    · simp at h
    · rcases h with ⟨e2, _, hprev, _⟩ | h2
      · exact Option.noConfusion hprev
      · exact h2
    · exact absurd h hstart
    · exact absurd h hend
    · simp at h
  · intro h
    exact Or.inl (Or.inl (Or.inl (Or.inr (Or.inr h))))

/-- The rendered command list for the word "AB", fully evaluated. -/
lemma renderCmds_AB : renderCmds "AB" =
    [DrawCmd.background, DrawCmd.boundingCircle (0, 0) 2.5,
      DrawCmd.text (0, 0.7) "A" "#FFFF00",
      DrawCmd.text (ringPos 1.2 13 12) "B" "#FFFF00",
      DrawCmd.segment (0, 0.7) (ringPos 1.2 13 12) "#FFFF00",
      DrawCmd.startMarker (0, 0.7) 0.2,
      DrawCmd.endTick (ringPos 1.2 13 12)
        ((ringPos 1.2 13 12).1 + 0.2, (ringPos 1.2 13 12).2 - 0.2),
      DrawCmd.title "An Alchemelodic Sigil Generator"] := by
  have hres : resolvedSeq "AB" =
      [("A", "#FFFF00", ((0 : ℝ), (0.7 : ℝ))), ("B", "#FFFF00", ringPos 1.2 13 12)] := rfl
  have hne : ringPos 1.2 13 12 ≠ ((0 : ℝ), (0.7 : ℝ)) :=
    ne_of_normSq2 (by rw [ringPos_normSq]; norm_num [normSq2])
  rw [renderCmds_eq, hres, traceOf_cons, traceOf_cons]
  rw [if_neg (by simp), if_neg (by simpa using hne)]
  simp [traceOf, startCmds, endCmds]

/-- Claim C1: for every input word, `preprocess_word` is the greedy
longest-match-first tokenizer with maximum token length 2 described by the
spec (upper-case, scan left to right, consume a two-character Atlas key and
advance two, otherwise consume a single-character key and advance one,
otherwise skip); in particular `preprocess_word "CH"` yields `["CH"]`, not
`["C", "H"]`. -/
theorem C1_preprocess_is_greedy_tokenizer :
    (∀ w : String, preprocess_word w = preprocess_spec w) ∧
    preprocess_word "CH" = ["CH"] ∧
    ((preprocess_word "CH" == ["C", "H"]) = false) :=
  ⟨preprocess_eq_spec, by decide, by decide⟩

set_option maxHeartbeats 2000000 in
/-- Claim C2: the Layout Table assigns outer-ring symbols (in the fixed
order) position `ringPos 2 13 i`, middle-ring symbols `ringPos 1.2 13 i`,
centers A at (0, 0.7), M at (-0.7, 0), Sh at (0.7, 0), and all 29
coordinates are pairwise distinct. -/
theorem C2_layout_table :
    (∀ (i : ℕ) (s : String), ordered_outer_letters[i]? = some s →
        all_positions s = some (ringPos 2 13 i)) ∧
    (∀ (i : ℕ) (s : String), ordered_middle_letters[i]? = some s →
        all_positions s = some (ringPos 1.2 13 i)) ∧
    all_positions "A" = some (0, 0.7) ∧
    all_positions "M" = some (-0.7, 0) ∧
    all_positions "Sh" = some (0.7, 0) ∧
    layoutCoords.Pairwise (fun p q => p ≠ q) := by
  refine ⟨?_, ?_, rfl, rfl, rfl, layoutCoords_pairwise⟩
  · intro i s h
    have hi : i < 13 := by
      by_contra hno
      rw [List.getElem?_eq_none
        (by simp only [ordered_outer_letters, List.length_cons, List.length_nil]; omega)] at h
      exact Option.noConfusion h
    interval_cases i
    all_goals
      simp only [ordered_outer_letters, List.getElem?_cons_zero,
        List.getElem?_cons_succ, Option.some.injEq] at h
    all_goals subst h
    all_goals rfl
  · intro i s h
    have hi : i < 13 := by
      by_contra hno
      rw [List.getElem?_eq_none
        (by simp only [ordered_middle_letters, List.length_cons, List.length_nil]; omega)] at h
      exact Option.noConfusion h
    interval_cases i
    all_goals
      simp only [ordered_middle_letters, List.getElem?_cons_zero,
        List.getElem?_cons_succ, Option.some.injEq] at h
    all_goals subst h
    all_goals rfl

/-- Witness for C2 at concrete inputs: index 0 of the outer ring is "H" and
index 12 of the middle ring is "B", with the claimed positions. -/
theorem C2_layout_table_witness :
    ordered_outer_letters[0]? = some "H"
      ∧ all_positions "H" = some (ringPos 2 13 0)
      ∧ ordered_middle_letters[12]? = some "B"
      ∧ all_positions "B" = some (ringPos 1.2 13 12) :=
  ⟨rfl, C2_layout_table.1 0 "H" rfl, rfl, C2_layout_table.2.1 12 "B" rfl⟩

/-- Claim C3: every Atlas entry's canonical symbol has a layout entry;
consequently the renderer's skip branch is never taken: the resolved
sequence has exactly one entry per token. -/
theorem C3_atlas_symbols_have_layout :
    (∀ (k : String) (v : String × String), letter_mapping k = some v →
        (all_positions v.1).isSome) ∧
    (∀ w : String, (resolvedSeq w).length = (preprocess_word w).length) := by
  refine ⟨atlas_symbol_has_position, ?_⟩
  intro w
  unfold resolvedSeq
  exact length_filterMap_resolveTok (preprocess_word w)
    (fun t ht => resolveTok_isSome_of_key t (preprocess_tokens_mapped w t ht))

/-- Witness for C3 at a concrete input: the Atlas key "C" maps to symbol
"G", which has a layout entry; "JAMES" resolves all its five tokens. -/
theorem C3_atlas_symbols_have_layout_witness :
    letter_mapping "C" = some ("G", "#0000FF")
      ∧ ((all_positions ("G", "#0000FF").1).isSome = true)
      ∧ (resolvedSeq "JAMES").length = (preprocess_word "JAMES").length :=
  ⟨rfl, C3_atlas_symbols_have_layout.1 "C" ("G", "#0000FF") rfl,
    C3_atlas_symbols_have_layout.2 "JAMES"⟩

/-- Claim C4: a repeat ring marker (radius 0.2, in the current symbol's
color) is drawn at a coordinate exactly when that coordinate was already
visited earlier in the resolved sequence; "AA" produces one at (0, 0.7),
and "AB" (two first visits) produces none. -/
theorem C4_repeat_markers :
    (∀ (w : String) (p : ℝ × ℝ) (rad : ℝ) (c : String),
        DrawCmd.repeatMarker p rad c ∈ renderCmds w
          ↔ rad = 0.2 ∧ ∃ i e, (resolvedSeq w)[i]? = some e ∧ posOf e = p
              ∧ colorOf e = c ∧ p ∈ ((resolvedSeq w).take i).map posOf) ∧
    DrawCmd.repeatMarker (0, 0.7) 0.2 "#FFFF00" ∈ renderCmds "AA" ∧
    (renderCmds "AB").filter isRepeatMarker = [] := by
  refine ⟨repeatMarker_mem_renderCmds, ?_, ?_⟩
  · apply (repeatMarker_mem_renderCmds _ _ _ _).mpr
    refine ⟨rfl, 1, ("A", "#FFFF00", ((0 : ℝ), (0.7 : ℝ))), rfl, rfl, rfl, ?_⟩
    have hres : resolvedSeq "AA" =
        [("A", "#FFFF00", ((0 : ℝ), (0.7 : ℝ))),
          ("A", "#FFFF00", ((0 : ℝ), (0.7 : ℝ)))] := rfl
    rw [hres]
    simp
  · rw [renderCmds_AB]
    simp [isRepeatMarker]

/-- Claim C5: a segment from `q` to `p` in color `col` is drawn exactly when
two adjacent resolved triples sit at `q` and `p` and the source triple has
color `col` — so segments carry the previous symbol's color; for "HA" the
single segment drawn is colored "#FF0000" (H's color), not "#FFFF00". -/
theorem C5_segments_source_colored :
    (∀ (w : String) (q p : ℝ × ℝ) (col : String),
        DrawCmd.segment q p col ∈ renderCmds w
          ↔ ∃ i e1 e2, (resolvedSeq w)[i]? = some e1
              ∧ (resolvedSeq w)[i + 1]? = some e2
              ∧ posOf e1 = q ∧ colorOf e1 = col ∧ posOf e2 = p) ∧
    DrawCmd.segment (ringPos 2 13 0) (0, 0.7) "#FF0000" ∈ renderCmds "HA" ∧
    (renderCmds "HA").filter isSegment
      = [DrawCmd.segment (ringPos 2 13 0) (0, 0.7) "#FF0000"] := by
  refine ⟨segment_mem_renderCmds_iff, ?_, ?_⟩
  · rw [renderCmds_HA]
    simp
  · rw [renderCmds_HA]
    simp [isSegment]

/-- Claim C6: an empty or fully-unmapped word renders without error to just
the background, the bounding circle of radius 2.5, and the fixed caption:
no symbol text, no segments, no repeat markers, no start or end markers. -/
theorem C6_empty_render :
    renderCmds "" = [DrawCmd.background, DrawCmd.boundingCircle (0, 0) 2.5,
        DrawCmd.title "An Alchemelodic Sigil Generator"] ∧
    ∀ w : String, resolvedSeq w = [] →
      renderCmds w = [DrawCmd.background, DrawCmd.boundingCircle (0, 0) 2.5,
        DrawCmd.title "An Alchemelodic Sigil Generator"] := by
  refine ⟨rfl, ?_⟩
  intro w hw
  rw [renderCmds_eq, hw]
  simp [traceOf, startCmds, endCmds]

/-- Witness for C6 at a concrete input: "1?" has no mapped characters and
renders to background, bounding circle, and caption only. -/
theorem C6_empty_render_witness :
    resolvedSeq "1?" = ([] : List (String × String × (ℝ × ℝ)))
      ∧ renderCmds "1?" = [DrawCmd.background, DrawCmd.boundingCircle (0, 0) 2.5,
          DrawCmd.title "An Alchemelodic Sigil Generator"] :=
  ⟨rfl, C6_empty_render.2 "1?" rfl⟩

/-- Claim C7: rendering is deterministic: the command trace and the
resolved sequence are functions of the input word alone, and "JAMES"
resolves to the fixed coordinate path I, A, M, A, S. -/
theorem C7_render_deterministic :
    (∀ (w : String) (out1 out2 : List DrawCmd),
        out1 = renderCmds w → out2 = renderCmds w → out1 = out2) ∧
    (∀ (w : String) (r1 r2 : List (String × String × (ℝ × ℝ))),
        r1 = resolvedSeq w → r2 = resolvedSeq w → r1 = r2) ∧
    (resolvedSeq "JAMES").map posOf =
      [ringPos 2 13 10, (0, 0.7), (-0.7, 0), (0, 0.7), ringPos 2 13 7] := by
  refine ⟨?_, ?_, rfl⟩
  · intro w o1 o2 h1 h2
    rw [h1, h2]
  · intro w r1 r2 h1 h2
    rw [h1, h2]

/-- Witness for C7 at a concrete input: two renders of "JAMES" agree. -/
theorem C7_render_deterministic_witness :
    renderCmds "JAMES" = renderCmds "JAMES"
      ∧ resolvedSeq "JAMES" = resolvedSeq "JAMES" :=
  ⟨C7_render_deterministic.1 "JAMES" (renderCmds "JAMES") (renderCmds "JAMES") rfl rfl,
    C7_render_deterministic.2.1 "JAMES" (resolvedSeq "JAMES") (resolvedSeq "JAMES") rfl rfl⟩

/-- Claim C8: unmapped characters contribute nothing to the token sequence:
`preprocess_word "A1B"` equals `preprocess_word "AB"`, and every emitted
token is an Atlas key. -/
theorem C8_unmapped_chars_dropped :
    preprocess_word "A1B" = preprocess_word "AB" ∧
    (∀ (w : String) (t : String), t ∈ preprocess_word w →
        (letter_mapping t).isSome) := by
  refine ⟨by decide, ?_⟩
  intro w t ht
  exact preprocess_tokens_mapped w t ht

/-- Witness for C8 at a concrete input: the token "A" of "A1B" is an Atlas
key. -/
theorem C8_unmapped_chars_dropped_witness :
    ("A" ∈ preprocess_word "A1B") ∧ ((letter_mapping "A").isSome = true) :=
  ⟨by decide, C8_unmapped_chars_dropped.2 "A1B" "A" (by decide)⟩

/-- Claim C9: preprocessing is case-insensitive: for every word it equals
preprocessing of the upper-cased word; in particular `preprocess_word "ch"`
equals `preprocess_word "CH"`. -/
theorem C9_preprocess_case_insensitive :
    (∀ w : String, preprocess_word w = preprocess_word (toUpperStr w)) ∧
    preprocess_word "ch" = preprocess_word "CH" :=
  ⟨fun w => (preprocess_toUpper w).symm, by decide⟩

/-- Claim C10: an unmapped character occupies a scan position and blocks a
digraph from forming across it: `preprocess_word "C1H"` is `["C", "H"]`
while `preprocess_word "CH"` is `["CH"]`, and the two differ, so dropping
unmapped characters first would change the result. -/
theorem C10_unmapped_blocks_digraphs :
    preprocess_word "C1H" = ["C", "H"] ∧
    preprocess_word "CH" = ["CH"] ∧
    ((preprocess_word "C1H" == preprocess_word "CH") = false) :=
  ⟨by decide, by decide, by decide⟩
